import Mathlib

/-!
Verification of the Picard fixed-point matrix solver with Anderson
acceleration, `hermes_common/src/solvers/picard_matrix_solver.cpp`.

Scalars are modelled by exact rationals (the `double` instantiation of the
C++ template, idealized to exact field arithmetic).  Solution vectors are
lists of rationals; the vector history `previous_vectors` together with its
occupancy counter `vec_in_memory` is modelled by a list of vectors whose
length is the occupancy (slots beyond `vec_in_memory` are never read by the
source, so they are not modelled).  Out-of-range component reads are
modelled as 0; every theorem below only exercises in-range accesses.
-/

namespace PicardSolver

/-- A solution vector (one rational per degree of freedom). -/
abbrev Vec := List ℚ

/-- Component access `v[i]` of a C array. -/
def entryAt (v : Vec) (i : ℕ) : ℚ := v.getD i 0

/-- History slot access `previous_vectors[j]`. -/
def histVec (hist : List Vec) (j : ℕ) : Vec := hist.getD j []

/-- The history update of `handle_previous_vectors` (lines 147-162):
if the memory is not full the new vector is stored at index `vec_in_memory`
(which is then incremented); otherwise all vectors are shifted back by one
slot, the oldest is forgotten, and the new vector is stored at the last
index. -/
def pushHistory (cap : ℕ) (hist : List Vec) (v : Vec) : List Vec :=
  if hist.length < cap then hist ++ [v] else hist.drop 1 ++ [v]

/-- Modelled from the spec: the Dense Linear Algebra Helper (`ludcmp` /
`lubksb` of `dense_matrix_operations`, whose source is not among the
provided files) solves a small dense linear system by LU decomposition with
partial pivoting.  `pickPivot` performs the partial-pivoting row choice: it
selects a row whose leading entry has the largest absolute value and returns
it together with the remaining rows (each row is paired with its
right-hand-side entry). -/
def pickPivot : List (List ℚ × ℚ) → (List ℚ × ℚ) × List (List ℚ × ℚ)
  | [] => (([], 0), [])
  | [r] => (r, [])
  | r :: s :: rs =>
    let pr := pickPivot (s :: rs)
    if |r.1.headD 0| < |pr.1.1.headD 0| then (pr.1, r :: pr.2) else (r, s :: rs)

/-- Modelled from the spec: one elimination step of the LU factorization —
subtract the multiple of the pivot row that clears the leading entry of
`row`. -/
def elimRow (piv : List ℚ × ℚ) (row : List ℚ × ℚ) : List ℚ × ℚ :=
  match piv, row with
  | (pa :: pr, pb), (a :: r, b) =>
    (List.zipWith (fun x y => x - (a / pa) * y) r pr, b - (a / pa) * pb)
  | _, _ => ([], 0)

/-- Modelled from the spec: forward elimination with partial pivoting.  The
fuel argument equals the system dimension; the result rows form the upper
triangular factor together with the transformed right-hand side. -/
def gaussElim : ℕ → List (List ℚ × ℚ) → List (List ℚ × ℚ)
  | 0, _ => []
  | _ + 1, [] => []
  | fuel + 1, r :: rs =>
    let pr := pickPivot (r :: rs)
    pr.1 :: gaussElim fuel (pr.2.map (elimRow pr.1))

/-- Dot product of two coefficient lists (used by back substitution). -/
def dot : List ℚ → List ℚ → ℚ
  | a :: as, b :: bs => a * b + dot as bs
  | _, _ => 0

/-- Modelled from the spec: back substitution on the triangular system
produced by `gaussElim` (first row longest).  A malformed empty row yields a
padding 0 so that the output always has one entry per row; this case never
arises on well-formed systems. -/
def backSub : List (List ℚ × ℚ) → List ℚ
  | [] => []
  | (r, b) :: rest =>
    let xs := backSub rest
    match r with
    | a :: cs => ((b - dot cs xs) / a) :: xs
    | [] => 0 :: xs

/-- Modelled from the spec: solve the `n × n` dense system `mat · x = rhs`
by LU decomposition with partial pivoting (`ludcmp` followed by `lubksb`). -/
def luSolve (n : ℕ) (mat : ℕ → ℕ → ℚ) (rhs : ℕ → ℚ) : List ℚ :=
  let rows := (List.range n).map (fun i => ((List.range n).map (mat i), rhs i))
  backSub (gaussElim n rows)

/-- The residual `previous_vectors[i+1][k] - previous_vectors[i][k]` of
`calculate_anderson_coeffs` (lines 205-206 and 214-216). -/
def residual (hist : List Vec) (i k : ℕ) : ℚ :=
  entryAt (histVec hist (i + 1)) k - entryAt (histVec hist i) k

/-- The i-th right-hand-side entry of the Anderson system
(`calculate_anderson_coeffs`, lines 202-208). -/
def andersonRhsEntry (dim : ℕ) (hist : List Vec) (n i : ℕ) : ℚ :=
  ∑ k ∈ Finset.range dim, residual hist n k * (residual hist n k - residual hist i k)

/-- The (i,j) matrix entry of the Anderson system
(`calculate_anderson_coeffs`, lines 209-221). -/
def andersonMatEntry (dim : ℕ) (hist : List Vec) (n i j : ℕ) : ℚ :=
  ∑ k ∈ Finset.range dim,
    (residual hist n k - residual hist i k) * (residual hist n k - residual hist j k)

/-- `calculate_anderson_coeffs` (lines 180-243): if the capacity is 2 the
single coefficient is 1.0 and no system is solved; otherwise the
`n = cap - 2` dimensional dense system is set up and solved by the Dense
Linear Algebra Helper, the first `n` coefficients are the solve result and
the final one is `1 -` their sum. -/
def calculate_anderson_coeffs (cap dim : ℕ) (hist : List Vec) : List ℚ :=
  if cap = 2 then [1]
  else
    let n := cap - 2
    let sol := luSolve n (andersonMatEntry dim hist n) (andersonRhsEntry dim hist n)
    sol ++ [1 - sol.sum]

/-- The mixed vector of `handle_previous_vectors` (lines 170-175):
component `i` is the sum over `j = 1 .. cap-1` of
`coeffs[j-1]*hist[j][i] - (1 - beta)*coeffs[j-1]*(hist[j][i] - hist[j-1][i])`. -/
def mixVector (cap dim : ℕ) (beta : ℚ) (coeffs : List ℚ) (hist : List Vec) : Vec :=
  (List.range dim).map (fun i =>
    ∑ j ∈ Finset.Ico 1 cap,
      (coeffs.getD (j - 1) 0 * entryAt (histVec hist j) i
        - (1 - beta) * coeffs.getD (j - 1) 0 *
            (entryAt (histVec hist j) i - entryAt (histVec hist (j - 1)) i)))

/-- `handle_previous_vectors` (lines 141-178): when Anderson acceleration is
on, store the new solution vector in the history; once the history is full
(`vec_in_memory >= num_last_vectors_used`), compute the Anderson
coefficients and replace the solution vector by the mixed vector.  Returns
the updated history and the (possibly mixed) solution vector. -/
def handle_previous_vectors (anderson_is_on : Bool) (cap dim : ℕ) (beta : ℚ)
    (hist : List Vec) (sln : Vec) : List Vec × Vec :=
  if anderson_is_on then
    let hist' := pushHistory cap hist sln
    if cap ≤ hist'.length then
      (hist', mixVector cap dim beta (calculate_anderson_coeffs cap dim hist') hist')
    else (hist', sln)
  else (hist, sln)

/-! Auxiliary lemmas about the spec-modelled dense solver: it always returns
exactly one value per unknown. -/

lemma pickPivot_rest_length (r : List ℚ × ℚ) (rs : List (List ℚ × ℚ)) :
    (pickPivot (r :: rs)).2.length = rs.length := by
  induction rs generalizing r with
  | nil => rfl
  | cons s rs ih =>
    show (pickPivot (r :: s :: rs)).2.length = (s :: rs).length
    simp only [pickPivot]
    split
    · simpa using ih s
    · rfl

lemma backSub_length : ∀ l : List (List ℚ × ℚ), (backSub l).length = l.length
  | [] => rfl
  | (r, b) :: rest => by
    simp only [backSub]
    cases r with
    | nil => simp [backSub_length rest]
    | cons a cs => simp [backSub_length rest]

lemma gaussElim_length : ∀ (fuel : ℕ) (rows : List (List ℚ × ℚ)),
    rows.length = fuel → (gaussElim fuel rows).length = fuel
  | 0, _, _ => rfl
  | _ + 1, [], h => by simp at h
  | fuel + 1, r :: rs, h => by
    simp only [gaussElim, List.length_cons]
    have h1 : rs.length = fuel := by simpa using h
    rw [gaussElim_length fuel _ (by simp [pickPivot_rest_length, h1])]

lemma luSolve_length (n : ℕ) (mat : ℕ → ℕ → ℚ) (rhs : ℕ → ℚ) :
    (luSolve n mat rhs).length = n := by
  unfold luSolve
  rw [backSub_length, gaussElim_length]
  simp

/-- C1: for every configured history capacity k >= 2, every
mixing-coefficient set accepted after a full history (the n = k-2 values
returned by the dense solve plus the final coefficient set to 1 minus their
sum; the single coefficient 1.0 when k = 2) sums to exactly 1.  Proved for
every history, in particular every full one; the sum is 1 whatever values
the dense solve returns. -/
theorem claim_C1_coeffs_sum_to_one (cap dim : ℕ) (hist : List Vec)
    (hcap : 2 ≤ cap) :
    (calculate_anderson_coeffs cap dim hist).sum = 1 ∧
    (cap = 2 → calculate_anderson_coeffs cap dim hist = [1]) := by
  unfold calculate_anderson_coeffs
  by_cases h : cap = 2
  · simp [h]
  · refine ⟨?_, fun hc => absurd hc h⟩
    rw [if_neg h]
    simp

/-- Witness for C1 at capacity 3, dimension 1, history [[0],[1],[3]]. -/
theorem claim_C1_coeffs_sum_to_one_witness :
    2 ≤ 3 ∧ calculate_anderson_coeffs 3 1 [[0], [1], [3]] = [2, -1] ∧
      (calculate_anderson_coeffs 3 1 [[0], [1], [3]]).sum = 1 :=
  ⟨by decide,
    by
      norm_num [calculate_anderson_coeffs, luSolve, gaussElim, pickPivot, backSub,
        elimRow, dot, andersonMatEntry, andersonRhsEntry, residual, entryAt, histVec,
        Finset.sum_range_succ, List.range_succ],
    (claim_C1_coeffs_sum_to_one 3 1 [[0], [1], [3]] (by decide)).1⟩

/-! History-ordering lemmas for C5. -/

lemma foldl_push_fill : ∀ (vs : List Vec) (acc : List Vec) (cap : ℕ),
    acc.length + vs.length ≤ cap → List.foldl (pushHistory cap) acc vs = acc ++ vs
  | [], acc, cap, _ => by simp
  | v :: vs, acc, cap, h => by
    have hlt : acc.length < cap := by
      simp only [List.length_cons] at h
      omega
    simp only [List.foldl_cons, pushHistory, if_pos hlt]
    rw [foldl_push_fill vs (acc ++ [v]) cap (by simp at h ⊢; omega)]
    simp

/-- C5: a push onto a full capacity-k history evicts the entry at index 0,
shifts the surviving k-1 entries down by one position preserving their
relative order, and stores the new vector at the last index; consequently
pushing k+1 vectors in sequence (starting from an empty history) leaves the
history holding, in order, vectors 2..k+1. -/
theorem claim_C5_history_ordering (cap : ℕ) (hist : List Vec) (v : Vec)
    (vs : List Vec) (hcap : 1 ≤ cap) (hfull : hist.length = cap)
    (hvs : vs.length = cap + 1) :
    pushHistory cap hist v = hist.drop 1 ++ [v] ∧
    List.foldl (pushHistory cap) [] vs = vs.drop 1 := by
  constructor
  · unfold pushHistory
    rw [if_neg (by omega)]
  · have hne : vs ≠ [] := by
      intro hnil
      rw [hnil] at hvs
      simp at hvs
    have hdl : vs.dropLast.length = cap := by
      simp [List.length_dropLast, hvs]
    conv_lhs => rw [← List.dropLast_append_getLast hne]
    rw [List.foldl_append]
    rw [foldl_push_fill vs.dropLast [] cap (by simp [hdl])]
    simp only [List.nil_append, List.foldl_cons, List.foldl_nil]
    unfold pushHistory
    rw [if_neg (by omega)]
    conv_rhs => rw [← List.dropLast_append_getLast hne]
    rw [List.drop_append_of_le_length (by omega)]

/-- Witness for C5: capacity 2, a full history, and the push sequence
[1], [2], [3]. -/
theorem claim_C5_history_ordering_witness :
    1 ≤ 2 ∧ ([[0], [1]] : List Vec).length = 2 ∧
      ([[1], [2], [3]] : List Vec).length = 2 + 1 ∧
      pushHistory 2 [[0], [1]] [2] = [[1], [2]] ∧
      List.foldl (pushHistory 2) [] [[1], [2], [3]] = [[2], [3]] := by
  refine ⟨by decide, by decide, by decide, ?_, ?_⟩
  · have h := (claim_C5_history_ordering 2 [[0], [1]] [2] [[1], [2], [3]]
      (by decide) (by decide) (by decide)).1
    rw [h]
    norm_num
  · have h := (claim_C5_history_ordering 2 [[0], [1]] [2] [[1], [2], [3]]
      (by decide) (by decide) (by decide)).2
    rw [h]
    norm_num

/-! Component access into a vector built by mapping over an index range. -/

lemma getD_map_range (f : ℕ → ℚ) (n i : ℕ) (h : i < n) :
    ((List.range n).map f).getD i 0 = f i := by
  rw [List.getD_eq_getElem?_getD, List.getElem?_map, List.getElem?_range h]
  rfl

/-- C2: whenever acceleration is enabled and the history holds k vectors,
the accepted solution vector is replaced so that at every component index i
it equals the sum over j = 1..k-1 of coeff_(j-1)*history[j][i]
- (1 - damping)*coeff_(j-1)*(history[j][i] - history[j-1][i]); the damping
factor beta scales only the difference of consecutive history entries, not
the base coefficient term. -/
theorem claim_C2_mixing_formula (cap dim : ℕ) (beta : ℚ) (hist : List Vec)
    (sln : Vec) (i : ℕ)
    (hfull : cap ≤ (pushHistory cap hist sln).length) (hi : i < dim) :
    ((handle_previous_vectors true cap dim beta hist sln).2).getD i 0 =
      ∑ j ∈ Finset.Ico 1 cap,
        ((calculate_anderson_coeffs cap dim (pushHistory cap hist sln)).getD (j - 1) 0 *
            entryAt (histVec (pushHistory cap hist sln) j) i
          - (1 - beta) *
            (calculate_anderson_coeffs cap dim (pushHistory cap hist sln)).getD (j - 1) 0 *
            (entryAt (histVec (pushHistory cap hist sln) j) i
              - entryAt (histVec (pushHistory cap hist sln) (j - 1)) i)) := by
  unfold handle_previous_vectors
  simp only [if_pos hfull, if_true]
  exact getD_map_range _ dim i hi

/-- Witness for C2 at capacity 2, dimension 1, damping 1/2, history [[0]]
and new vector [1]: the mixed component is 1/2 and equals the stated sum. -/
theorem claim_C2_mixing_formula_witness :
    2 ≤ (pushHistory 2 [[0]] [1]).length ∧ 0 < 1 ∧
      ((handle_previous_vectors true 2 1 (1/2) [[0]] [1]).2).getD 0 0 = 1/2 ∧
      ((handle_previous_vectors true 2 1 (1/2) [[0]] [1]).2).getD 0 0 =
        ∑ j ∈ Finset.Ico 1 2,
          ((calculate_anderson_coeffs 2 1 (pushHistory 2 [[0]] [1])).getD (j - 1) 0 *
              entryAt (histVec (pushHistory 2 [[0]] [1]) j) 0
            - (1 - (1/2 : ℚ)) *
              (calculate_anderson_coeffs 2 1 (pushHistory 2 [[0]] [1])).getD (j - 1) 0 *
              (entryAt (histVec (pushHistory 2 [[0]] [1]) j) 0
                - entryAt (histVec (pushHistory 2 [[0]] [1]) (j - 1)) 0)) :=
  ⟨by norm_num [pushHistory], by decide,
    by
      norm_num [handle_previous_vectors, pushHistory, mixVector,
        calculate_anderson_coeffs, entryAt, histVec, List.range_succ,
        Finset.sum_Ico_eq_sum_range, Finset.sum_range_succ],
    claim_C2_mixing_formula 2 1 (1/2) [[0]] [1] 0 (by norm_num [pushHistory])
      (by decide)⟩

/-! Claim-side definitions for C3, written from the words of the claim. -/

/-- From the words of claim C3: r_i is the componentwise difference
history[i+1] - history[i] (component k). -/
def c3_residual (hist : List Vec) (i k : ℕ) : ℚ :=
  entryAt (histVec hist (i + 1)) k - entryAt (histVec hist i) k

/-- From the words of claim C3: entry (i,j) of the dense system is the sum
over components of (r_n - r_i)*(r_n - r_j). -/
def c3_matrixEntry (dim : ℕ) (hist : List Vec) (n i j : ℕ) : ℚ :=
  ∑ k ∈ Finset.range dim,
    (c3_residual hist n k - c3_residual hist i k) *
      (c3_residual hist n k - c3_residual hist j k)

/-- From the words of claim C3: right-hand-side entry i is the sum over
components of r_n*(r_n - r_i). -/
def c3_rhsEntry (dim : ℕ) (hist : List Vec) (n i : ℕ) : ℚ :=
  ∑ k ∈ Finset.range dim,
    c3_residual hist n k * (c3_residual hist n k - c3_residual hist i k)

/-- C3: for every history capacity k >= 3, once the history is full, the
first n = k-2 mixing coefficients are the result of solving the n-by-n dense
system whose entry (i,j) is the sum over components of (r_n - r_i)*(r_n -
r_j) and whose right-hand-side entry i is the sum over components of
r_n*(r_n - r_i), where r_i = history[i+1] - history[i], by LU decomposition
with partial pivoting (the spec-modelled luSolve); the solve result has
exactly n entries, so the coefficient list is that solution followed by the
closing affine coefficient. -/
theorem claim_C3_dense_system (cap dim : ℕ) (hist : List Vec)
    (hcap : 3 ≤ cap) (hfull : hist.length = cap) :
    calculate_anderson_coeffs cap dim hist =
      luSolve (cap - 2) (c3_matrixEntry dim hist (cap - 2))
          (c3_rhsEntry dim hist (cap - 2)) ++
        [1 - (luSolve (cap - 2) (c3_matrixEntry dim hist (cap - 2))
          (c3_rhsEntry dim hist (cap - 2))).sum] ∧
    (luSolve (cap - 2) (c3_matrixEntry dim hist (cap - 2))
      (c3_rhsEntry dim hist (cap - 2))).length = cap - 2 := by
  constructor
  · unfold calculate_anderson_coeffs
    rw [if_neg (by omega)]
    rfl
  · exact luSolve_length _ _ _

/-- Witness for C3 at capacity 3, dimension 1, full history [[0],[1],[3]]:
the 1-by-1 system is ((1)) x = (2), its LU solution is [2], and the
coefficient list is [2, -1]. -/
theorem claim_C3_dense_system_witness :
    3 ≤ 3 ∧ ([[0], [1], [3]] : List Vec).length = 3 ∧
      luSolve 1 (c3_matrixEntry 1 [[0], [1], [3]] 1) (c3_rhsEntry 1 [[0], [1], [3]] 1) = [2] ∧
      c3_matrixEntry 1 [[0], [1], [3]] 1 0 0 = 1 ∧
      c3_rhsEntry 1 [[0], [1], [3]] 1 0 = 2 ∧
      calculate_anderson_coeffs 3 1 [[0], [1], [3]] =
        luSolve 1 (c3_matrixEntry 1 [[0], [1], [3]] 1) (c3_rhsEntry 1 [[0], [1], [3]] 1) ++
          [1 - (luSolve 1 (c3_matrixEntry 1 [[0], [1], [3]] 1)
            (c3_rhsEntry 1 [[0], [1], [3]] 1)).sum] :=
  ⟨by decide, by decide,
    by
      norm_num [luSolve, gaussElim, pickPivot, backSub, elimRow, dot, c3_matrixEntry,
        c3_rhsEntry, c3_residual, entryAt, histVec, Finset.sum_range_succ, List.range_succ],
    by
      norm_num [c3_matrixEntry, c3_residual, entryAt, histVec, Finset.sum_range_succ],
    by
      norm_num [c3_rhsEntry, c3_residual, entryAt, histVec, Finset.sum_range_succ],
    (claim_C3_dense_system 3 1 [[0], [1], [3]] (by decide) (by decide)).1⟩

/-- Counterexample to C4 as stated: with capacity 2, damping 1/2, previous
history [[0]] and newest raw iterate [1], the single coefficient is 1.0 but
the mixed vector is [1/2], not the newest history entry [1]. -/
theorem claim_C4_counterexample :
    calculate_anderson_coeffs 2 1 (pushHistory 2 [[0]] [1]) = [1] ∧
    (handle_previous_vectors true 2 1 (1/2) [[0]] [1]).1 = [[0], [1]] ∧
    (handle_previous_vectors true 2 1 (1/2) [[0]] [1]).2 = [1/2] ∧
    (handle_previous_vectors true 2 1 (1/2) [[0]] [1]).2 ≠ [1] := by
  refine ⟨rfl, by norm_num [handle_previous_vectors, pushHistory], ?_, ?_⟩
  · norm_num [handle_previous_vectors, pushHistory, mixVector,
      calculate_anderson_coeffs, entryAt, histVec, List.range_succ,
      Finset.sum_Ico_eq_sum_range, Finset.sum_range_succ]
  · norm_num [handle_previous_vectors, pushHistory, mixVector,
      calculate_anderson_coeffs, entryAt, histVec, List.range_succ,
      Finset.sum_Ico_eq_sum_range, Finset.sum_range_succ]

/-- C4 as amended: with history capacity exactly 2 and acceleration enabled,
every coefficient computation yields the single mixing coefficient 1.0
without solving any dense linear system (the capacity-2 branch of
calculate_anderson_coeffs returns before the solver is reached), and the
resulting mixed component is damping*newest + (1 - damping)*previous, which
equals the newest raw iterate (the newest history entry) exactly when the
damping factor is 1, its default. -/
theorem claim_C4_amended (dim : ℕ) (beta : ℚ) (hist : List Vec) (sln : Vec)
    (i : ℕ) (hfull : 2 ≤ (pushHistory 2 hist sln).length) (hi : i < dim) :
    calculate_anderson_coeffs 2 dim (pushHistory 2 hist sln) = [1] ∧
    ((handle_previous_vectors true 2 dim beta hist sln).2).getD i 0 =
      beta * entryAt (histVec (pushHistory 2 hist sln) 1) i
        + (1 - beta) * entryAt (histVec (pushHistory 2 hist sln) 0) i ∧
    (beta = 1 →
      ((handle_previous_vectors true 2 dim beta hist sln).2).getD i 0 =
        entryAt (histVec (pushHistory 2 hist sln) 1) i) := by
  have hmix : ((handle_previous_vectors true 2 dim beta hist sln).2).getD i 0 =
      beta * entryAt (histVec (pushHistory 2 hist sln) 1) i
        + (1 - beta) * entryAt (histVec (pushHistory 2 hist sln) 0) i := by
    unfold handle_previous_vectors
    simp only [if_pos hfull, if_true]
    rw [mixVector, getD_map_range _ dim i hi]
    have hico : Finset.Ico 1 2 = {1} := rfl
    rw [hico, Finset.sum_singleton]
    show (calculate_anderson_coeffs 2 dim (pushHistory 2 hist sln)).getD 0 0 *
        entryAt (histVec (pushHistory 2 hist sln) 1) i - _ = _
    rw [show calculate_anderson_coeffs 2 dim (pushHistory 2 hist sln) = [1] from rfl]
    show (1 : ℚ) * _ - (1 - beta) * 1 * _ = _
    ring
  refine ⟨rfl, hmix, fun hb => ?_⟩
  rw [hmix, hb]
  ring

/-- Witness for C4 as amended, at dimension 1, damping 1, history [[0]] and
newest iterate [1]: the mixed component equals the newest entry 1. -/
theorem claim_C4_amended_witness :
    2 ≤ (pushHistory 2 [[0]] [1]).length ∧ 0 < 1 ∧
      calculate_anderson_coeffs 2 1 (pushHistory 2 [[0]] [1]) = [1] ∧
      ((handle_previous_vectors true 2 1 1 [[0]] [1]).2).getD 0 0 = 1 ∧
      entryAt (histVec (pushHistory 2 [[0]] [1]) 1) 0 = 1 :=
  ⟨by norm_num [pushHistory], by decide,
    (claim_C4_amended 1 1 [[0]] [1] 0 (by norm_num [pushHistory]) (by decide)).1,
    by
      rw [(claim_C4_amended 1 1 [[0]] [1] 0 (by norm_num [pushHistory]) (by decide)).2.2 rfl]
      norm_num [pushHistory, entryAt, histVec],
    by norm_num [pushHistory, entryAt, histVec]⟩

/-!
The solve loop (`PicardMatrixSolver::solve`, lines 358-432, together with
`init_solving`, `init_anderson`, `do_initial_step_return_finished`,
`handle_convergence_state_return_finished` and `finalize_solving`).

External collaborators are abstracted at their interface boundary:
- the external linear solve (`solve_linear_system` followed by
  `calculate_error`, which ends by copying the raw new iterate into
  `sln_vector`) is an oracle `F` from the current iterate (the contents of
  `coeff_vec`) to the raw new iterate;
- the convergence state machine (`get_convergence_state`, in the base class
  whose source is not among the provided files) is an oracle from the
  iteration number to a `ConvState`;
- the caller hooks `on_step_begin` / `on_step_end` / `on_initial_step_end`
  are Boolean oracles.

`finalize_solving` (tick, record the iteration count, `on_finish`,
`deinit_solving`) is modelled by counting its invocations; its internal
calls are unconditional, so one invocation performs the whole sequence.  In
the source, `handle_convergence_state_return_finished` itself calls
`finalize_solving` for every state other than `NotConverged`; the model
counts that call at each use site of `handleConvergence`.

`init_anderson` (lines 116-127) allocates the history and the coefficient
array and copies `sln_vector` into history slot 0 when acceleration is on;
`deinit_anderson` (lines 129-139) would free them, but no call site of
`deinit_anderson` exists in the source file, which the Boolean
`andersonFreed` of the result records.
-/

/-- The convergence states of the nonlinear solver. -/
inductive ConvState
  | NotConverged
  | Converged
  | AboveMaxIterations
  | Error
deriving DecidableEq

/-- How one call to `solve` ends: a normal return after convergence, a
normal return after a caller-hook abort, an exception
(`NonlinearException(AboveMaxIterations)`, the unknown-exception case of the
`Error` state, or the configuration check of `isOkay`), or fuel exhaustion
of the model (the source loop would still be running). -/
inductive Outcome
  | finished
  | aborted
  | exnAboveMax
  | exnError
  | exnConfig
  | fuelOut
deriving DecidableEq

/-- What `handle_convergence_state_return_finished` (lines 53-81) does with
a state: keep iterating, finalize and report success, or finalize and
throw. -/
inductive HandleOut
  | notFinished
  | finishedOk
  | raised (o : Outcome)
deriving DecidableEq

/-- `handle_convergence_state_return_finished` (lines 53-81): `NotConverged`
returns false without finalizing; every other state finalizes, then
`Converged` returns true, `AboveMaxIterations` throws a
`NonlinearException` and `Error` throws an unknown exception. -/
def handleConvergence : ConvState → HandleOut
  | .NotConverged => .notFinished
  | .Converged => .finishedOk
  | .AboveMaxIterations => .raised .exnAboveMax
  | .Error => .raised .exnError

/-- The external collaborators of one solve call. -/
structure SolveEnv where
  F : Vec → Vec
  conv : ℕ → ConvState
  stepBegin : ℕ → Bool
  stepEnd : ℕ → Bool
  initialStepEnd : Bool

/-- The solver configuration read by `solve`. -/
structure Config where
  num_last_vectors_used : ℕ
  dimension : ℕ
  anderson_beta : ℚ
  anderson_is_on : Bool

/-- The mutable state threaded through the solve loop: the iteration
counter `it`, the vector history with its occupancy, `sln_vector`,
`coeff_vec`, and the number of external linear solves performed so far. -/
structure LoopSt where
  it : ℕ
  hist : List Vec
  sln : Vec
  coeffVec : Vec
  linSolves : ℕ

/-- What one call to `solve` did. -/
structure SolveResult where
  outcome : Outcome
  finalizeCount : ℕ
  slnVector : Vec
  hist : List Vec
  linSolves : ℕ
  andersonAllocated : Bool
  andersonFreed : Bool

/-- One iteration body: the external linear solve writes the raw new
iterate into `sln_vector` (`solve_linear_system` + `calculate_error`), then
`handle_previous_vectors` updates the history and possibly replaces
`sln_vector` by the mixed vector. -/
def iterationBody (cfg : Config) (env : SolveEnv) (st : LoopSt) : LoopSt :=
  let raw := env.F st.coeffVec
  let hs := handle_previous_vectors cfg.anderson_is_on cfg.num_last_vectors_used
    cfg.dimension cfg.anderson_beta st.hist raw
  ⟨st.it, hs.1, hs.2, st.coeffVec, st.linSolves + 1⟩

/-- The main `while (true)` loop of `solve` (lines 392-431), bounded by
fuel.  Order per source: `on_step_begin` (abort finalizes and returns),
linear solve and error, `handle_previous_vectors`, convergence handling
(terminal states finalize then return or throw), `on_step_end` (abort
finalizes and returns), then the iteration counter is increased and
`coeff_vec` is renewed from `sln_vector`. -/
def solveLoop (cfg : Config) (env : SolveEnv) : ℕ → LoopSt → SolveResult
  | 0, st => ⟨.fuelOut, 0, st.sln, st.hist, st.linSolves, cfg.anderson_is_on, false⟩
  | fuel + 1, st =>
    if env.stepBegin st.it then
      let st1 := iterationBody cfg env st
      match handleConvergence (env.conv st1.it) with
      | .finishedOk =>
        ⟨.finished, 1, st1.sln, st1.hist, st1.linSolves, cfg.anderson_is_on, false⟩
      | .raised o => ⟨o, 1, st1.sln, st1.hist, st1.linSolves, cfg.anderson_is_on, false⟩
      | .notFinished =>
        if env.stepEnd st1.it then
          solveLoop cfg env fuel ⟨st1.it + 1, st1.hist, st1.sln, st1.sln, st1.linSolves⟩
        else ⟨.aborted, 1, st1.sln, st1.hist, st1.linSolves, cfg.anderson_is_on, false⟩
    else ⟨.aborted, 1, st.sln, st.hist, st.linSolves, cfg.anderson_is_on, false⟩

/-- The solution vector set up by `init_solving` (lines 278-307): the
caller's initial guess, or zeros when none is supplied. -/
def initial_vector (cfg : Config) (guess : Option Vec) : Vec :=
  match guess with
  | none => List.replicate cfg.dimension 0
  | some g => g

/-- `PicardMatrixSolver::solve` (lines 358-432).  `init_solving` first runs
the `isOkay` check (lines 41-51), which throws when
`num_last_vectors_used <= 1`; then the solution vector is set up,
`init_anderson` pre-populates history slot 0 with it (occupancy counter
starts at 1, line 367), the initial step runs
(`do_initial_step_return_finished`, lines 309-335: linear solve, history
handling, `coeff_vec := sln_vector`, convergence handling, then the
`on_initial_step_end` hook), and the main loop follows.  When the initial
step reports finished without throwing, `solve` finalizes (line 386) — on
the `Converged`-at-initial-step path this is a second finalization, the
first having run inside `handle_convergence_state_return_finished`. -/
def solveModel (cfg : Config) (env : SolveEnv) (guess : Option Vec) (fuel : ℕ) :
    SolveResult :=
  if cfg.num_last_vectors_used ≤ 1 then
    ⟨.exnConfig, 0, [], [], 0, false, false⟩
  else
    let sln0 := initial_vector cfg guess
    let hist0 : List Vec := if cfg.anderson_is_on then [sln0] else []
    let st0 : LoopSt := ⟨1, hist0, sln0, sln0, 0⟩
    let st1p := iterationBody cfg env st0
    let st1 : LoopSt := ⟨st1p.it, st1p.hist, st1p.sln, st1p.sln, st1p.linSolves⟩
    match handleConvergence (env.conv 1) with
    | .finishedOk =>
      ⟨.finished, 2, st1.sln, st1.hist, st1.linSolves, cfg.anderson_is_on, false⟩
    | .raised o => ⟨o, 1, st1.sln, st1.hist, st1.linSolves, cfg.anderson_is_on, false⟩
    | .notFinished =>
      if env.initialStepEnd then
        solveLoop cfg env fuel ⟨2, st1.hist, st1.sln, st1.sln, st1.linSolves⟩
      else ⟨.aborted, 1, st1.sln, st1.hist, st1.linSolves, cfg.anderson_is_on, false⟩

/-- The accepted-iterate trace: the history and the accepted (possibly
mixed) solution vector after n external linear solves, starting from the
initial vector v0 (`init_anderson` copies v0 into history slot 0). -/
def andersonTrace (cfg : Config) (env : SolveEnv) (v0 : Vec) : ℕ → List Vec × Vec
  | 0 => (if cfg.anderson_is_on then [v0] else [], v0)
  | n + 1 =>
    let p := andersonTrace cfg env v0 n
    handle_previous_vectors cfg.anderson_is_on cfg.num_last_vectors_used
      cfg.dimension cfg.anderson_beta p.1 (env.F p.2)

/-! Control-flow lemmas about the solve loop. -/

lemma solveLoop_spec (cfg : Config) (env : SolveEnv) :
    ∀ (fuel : ℕ) (st : LoopSt),
      ((solveLoop cfg env fuel st).outcome = .fuelOut →
        (solveLoop cfg env fuel st).finalizeCount = 0) ∧
      ((solveLoop cfg env fuel st).outcome ≠ .fuelOut →
        (solveLoop cfg env fuel st).finalizeCount = 1) ∧
      (solveLoop cfg env fuel st).outcome ≠ .exnConfig
  | 0, st => by simp [solveLoop]
  | fuel + 1, st => by
    simp only [solveLoop]
    split
    · cases hc : env.conv (iterationBody cfg env st).it with
      | NotConverged =>
        simp only [handleConvergence]
        split
        · exact solveLoop_spec cfg env fuel _
        · simp
      | Converged => simp [handleConvergence]
      | AboveMaxIterations => simp [handleConvergence]
      | Error => simp [handleConvergence]
    · simp

lemma solveModel_finalize (cfg : Config) (env : SolveEnv) (guess : Option Vec)
    (fuel : ℕ) (hcap : 2 ≤ cfg.num_last_vectors_used) :
    (((solveModel cfg env guess fuel).outcome = .aborted ∨
        (solveModel cfg env guess fuel).outcome = .exnAboveMax ∨
        (solveModel cfg env guess fuel).outcome = .exnError) →
      (solveModel cfg env guess fuel).finalizeCount = 1) ∧
    ((solveModel cfg env guess fuel).outcome = .finished →
      ((env.conv 1 = .Converged → (solveModel cfg env guess fuel).finalizeCount = 2) ∧
        (env.conv 1 ≠ .Converged → (solveModel cfg env guess fuel).finalizeCount = 1))) ∧
    (solveModel cfg env guess fuel).outcome ≠ .exnConfig := by
  have hne : ¬ cfg.num_last_vectors_used ≤ 1 := by omega
  cases hc : env.conv 1 with
  | NotConverged =>
    by_cases hie : env.initialStepEnd = true
    · simp only [solveModel, if_neg hne, hc, handleConvergence, hie, if_true]
      refine ⟨fun h => ?_, fun h => ⟨fun hcc => ?_, fun _ => ?_⟩, ?_⟩
      · refine (solveLoop_spec cfg env fuel _).2.1 ?_
        rcases h with h | h | h <;> simp [h]
      · exact absurd hcc (by decide)
      · exact (solveLoop_spec cfg env fuel _).2.1 (by simp [h])
      · exact (solveLoop_spec cfg env fuel _).2.2
    · simp only [Bool.not_eq_true] at hie
      simp [solveModel, if_neg hne, hc, handleConvergence, hie]
  | Converged =>
    refine ⟨fun h => ?_, fun _ => ⟨fun _ => ?_, fun hnc => absurd rfl hnc⟩, ?_⟩
    · exfalso
      rcases h with h | h | h <;>
        simp [solveModel, if_neg hne, hc, handleConvergence] at h
    · simp [solveModel, if_neg hne, hc, handleConvergence]
    · simp [solveModel, if_neg hne, hc, handleConvergence]
  | AboveMaxIterations =>
    refine ⟨fun _ => ?_, fun h => ?_, ?_⟩
    · simp [solveModel, if_neg hne, hc, handleConvergence]
    · exfalso; simp [solveModel, if_neg hne, hc, handleConvergence] at h
    · simp [solveModel, if_neg hne, hc, handleConvergence]
  | Error =>
    refine ⟨fun _ => ?_, fun h => ?_, ?_⟩
    · simp [solveModel, if_neg hne, hc, handleConvergence]
    · exfalso; simp [solveModel, if_neg hne, hc, handleConvergence] at h
    · simp [solveModel, if_neg hne, hc, handleConvergence]

/-- The history returned by `handle_previous_vectors` with acceleration on
is the pushed history, whether or not mixing happened. -/
lemma handle_prev_hist (cap dim : ℕ) (beta : ℚ) (hist : List Vec) (sln : Vec) :
    (handle_previous_vectors true cap dim beta hist sln).1 = pushHistory cap hist sln := by
  by_cases h : cap ≤ (pushHistory cap hist sln).length
  · simp [handle_previous_vectors, h]
  · simp [handle_previous_vectors, h]

lemma pushHistory_length (cap : ℕ) (hist : List Vec) (v : Vec) (hcap : 1 ≤ cap) :
    (pushHistory cap hist v).length =
      if hist.length < cap then hist.length + 1 else hist.length := by
  unfold pushHistory
  split
  · simp
  · rename_i h
    simp only [if_neg h, List.length_append, List.length_drop, List.length_cons,
      List.length_nil]
    omega

lemma iterationBody_trace (cfg : Config) (env : SolveEnv) (v0 : Vec) (st : LoopSt)
    (n : ℕ) (h1 : st.hist = (andersonTrace cfg env v0 n).1)
    (h3 : st.coeffVec = (andersonTrace cfg env v0 n).2) :
    iterationBody cfg env st =
      ⟨st.it, (andersonTrace cfg env v0 (n + 1)).1, (andersonTrace cfg env v0 (n + 1)).2,
        st.coeffVec, st.linSolves + 1⟩ := by
  simp [iterationBody, andersonTrace, h1, h3]

lemma solveLoop_trace (cfg : Config) (env : SolveEnv) (v0 : Vec) :
    ∀ (fuel : ℕ) (st : LoopSt) (n : ℕ),
      st.hist = (andersonTrace cfg env v0 n).1 →
      st.sln = (andersonTrace cfg env v0 n).2 →
      st.coeffVec = (andersonTrace cfg env v0 n).2 →
      st.linSolves = n →
      (solveLoop cfg env fuel st).hist =
        (andersonTrace cfg env v0 (solveLoop cfg env fuel st).linSolves).1 ∧
      (solveLoop cfg env fuel st).slnVector =
        (andersonTrace cfg env v0 (solveLoop cfg env fuel st).linSolves).2 ∧
      n ≤ (solveLoop cfg env fuel st).linSolves
  | 0, st, n, h1, h2, h3, h4 => by
    subst h4
    exact ⟨h1, h2, Nat.le_refl _⟩
  | fuel + 1, st, n, h1, h2, h3, h4 => by
    subst h4
    have hb := iterationBody_trace cfg env v0 st st.linSolves h1 h3
    simp only [solveLoop]
    split
    · cases hc : handleConvergence (env.conv (iterationBody cfg env st).it) with
      | finishedOk =>
        rw [hb]
        dsimp only
        exact ⟨rfl, rfl, by omega⟩
      | raised o =>
        rw [hb]
        dsimp only
        exact ⟨rfl, rfl, by omega⟩
      | notFinished =>
        rw [hb]
        dsimp only
        split
        · have ih := solveLoop_trace cfg env v0 fuel
            ⟨st.it + 1, (andersonTrace cfg env v0 (st.linSolves + 1)).1,
              (andersonTrace cfg env v0 (st.linSolves + 1)).2,
              (andersonTrace cfg env v0 (st.linSolves + 1)).2,
              st.linSolves + 1⟩ (st.linSolves + 1) rfl rfl rfl rfl
          exact ⟨ih.1, ih.2.1, by omega⟩
        · exact ⟨rfl, rfl, Nat.le_succ _⟩
    · exact ⟨h1, h2, Nat.le_refl _⟩

lemma solveModel_trace (cfg : Config) (env : SolveEnv) (guess : Option Vec)
    (fuel : ℕ) (hcap : 2 ≤ cfg.num_last_vectors_used) :
    (solveModel cfg env guess fuel).hist =
      (andersonTrace cfg env (initial_vector cfg guess)
        (solveModel cfg env guess fuel).linSolves).1 ∧
    (solveModel cfg env guess fuel).slnVector =
      (andersonTrace cfg env (initial_vector cfg guess)
        (solveModel cfg env guess fuel).linSolves).2 ∧
    1 ≤ (solveModel cfg env guess fuel).linSolves := by
  have hne : ¬ cfg.num_last_vectors_used ≤ 1 := by omega
  have h0 : (⟨1, if cfg.anderson_is_on then [initial_vector cfg guess] else [],
      initial_vector cfg guess, initial_vector cfg guess, 0⟩ : LoopSt).hist =
      (andersonTrace cfg env (initial_vector cfg guess) 0).1 := rfl
  have hb := iterationBody_trace cfg env (initial_vector cfg guess)
    ⟨1, if cfg.anderson_is_on then [initial_vector cfg guess] else [],
      initial_vector cfg guess, initial_vector cfg guess, 0⟩ 0 h0 rfl
  cases hc : handleConvergence (env.conv 1) with
  | finishedOk => simp [solveModel, if_neg hne, hc, hb]
  | raised o => simp [solveModel, if_neg hne, hc, hb]
  | notFinished =>
    by_cases hie : env.initialStepEnd = true
    · have heq : solveModel cfg env guess fuel =
          solveLoop cfg env fuel
            ⟨2, (andersonTrace cfg env (initial_vector cfg guess) 1).1,
              (andersonTrace cfg env (initial_vector cfg guess) 1).2,
              (andersonTrace cfg env (initial_vector cfg guess) 1).2, 1⟩ := by
        simp [solveModel, if_neg hne, hc, hie, hb]
      rw [heq]
      have ih := solveLoop_trace cfg env (initial_vector cfg guess) fuel
        ⟨2, (andersonTrace cfg env (initial_vector cfg guess) 1).1,
          (andersonTrace cfg env (initial_vector cfg guess) 1).2,
          (andersonTrace cfg env (initial_vector cfg guess) 1).2, 1⟩ 1 rfl rfl rfl rfl
      exact ⟨ih.1, ih.2.1, by omega⟩
    · simp only [Bool.not_eq_true] at hie
      simp [solveModel, if_neg hne, hc, hb, hie]

/-- The mixed vector returned by `handle_previous_vectors` with
acceleration on, once the pushed history is full. -/
lemma handle_prev_mix (cap dim : ℕ) (beta : ℚ) (hist : List Vec) (sln : Vec)
    (h : cap ≤ (pushHistory cap hist sln).length) :
    (handle_previous_vectors true cap dim beta hist sln).2 =
      mixVector cap dim beta
        (calculate_anderson_coeffs cap dim (pushHistory cap hist sln))
        (pushHistory cap hist sln) := by
  simp [handle_previous_vectors, h]

lemma andersonTrace_length (cfg : Config) (env : SolveEnv) (v0 : Vec)
    (hon : cfg.anderson_is_on = true) (hcap : 1 ≤ cfg.num_last_vectors_used) :
    ∀ n, ((andersonTrace cfg env v0 n).1).length =
      min (n + 1) cfg.num_last_vectors_used
  | 0 => by
    simp only [andersonTrace, hon, if_true, List.length_cons, List.length_nil]
    omega
  | n + 1 => by
    have ih := andersonTrace_length cfg env v0 hon hcap n
    show ((handle_previous_vectors cfg.anderson_is_on cfg.num_last_vectors_used
      cfg.dimension cfg.anderson_beta (andersonTrace cfg env v0 n).1
      (env.F (andersonTrace cfg env v0 n).2)).1).length = _
    rw [hon, handle_prev_hist, pushHistory_length _ _ _ hcap]
    split <;> omega

lemma andersonTrace_contents (cfg : Config) (env : SolveEnv) (v0 : Vec)
    (hon : cfg.anderson_is_on = true) (hcap : 1 ≤ cfg.num_last_vectors_used) :
    ∀ n, n + 1 ≤ cfg.num_last_vectors_used →
      (andersonTrace cfg env v0 n).1 =
        v0 :: (List.range n).map (fun i => env.F ((andersonTrace cfg env v0 i).2))
  | 0, _ => by simp [andersonTrace, hon]
  | n + 1, hn => by
    have ih := andersonTrace_contents cfg env v0 hon hcap n (by omega)
    have hlen : ((andersonTrace cfg env v0 n).1).length = n + 1 := by
      rw [andersonTrace_length cfg env v0 hon hcap n]
      omega
    show (handle_previous_vectors cfg.anderson_is_on cfg.num_last_vectors_used
      cfg.dimension cfg.anderson_beta (andersonTrace cfg env v0 n).1
      (env.F (andersonTrace cfg env v0 n).2)).1 = _
    rw [hon, handle_prev_hist]
    unfold pushHistory
    rw [if_pos (by omega)]
    rw [ih, List.range_succ]
    simp [ih]

lemma andersonTrace_first_mix (cfg : Config) (env : SolveEnv) (v0 : Vec)
    (hon : cfg.anderson_is_on = true) (hcap : 2 ≤ cfg.num_last_vectors_used) :
    (andersonTrace cfg env v0 (cfg.num_last_vectors_used - 1)).2 =
      mixVector cfg.num_last_vectors_used cfg.dimension cfg.anderson_beta
        (calculate_anderson_coeffs cfg.num_last_vectors_used cfg.dimension
          ((andersonTrace cfg env v0 (cfg.num_last_vectors_used - 1)).1))
        ((andersonTrace cfg env v0 (cfg.num_last_vectors_used - 1)).1) := by
  obtain ⟨c, hc⟩ : ∃ c, cfg.num_last_vectors_used = c + 2 :=
    ⟨cfg.num_last_vectors_used - 2, by omega⟩
  have hlen : ((andersonTrace cfg env v0 c).1).length = c + 1 := by
    rw [andersonTrace_length cfg env v0 hon (by omega) c]
    omega
  have hpushlen : (pushHistory cfg.num_last_vectors_used (andersonTrace cfg env v0 c).1
      (env.F ((andersonTrace cfg env v0 c).2))).length = c + 2 := by
    rw [pushHistory_length _ _ _ (by omega), if_pos (by omega)]
    omega
  have hstep : cfg.num_last_vectors_used - 1 = c + 1 := by omega
  have h1 : (andersonTrace cfg env v0 (c + 1)).1 =
      pushHistory cfg.num_last_vectors_used (andersonTrace cfg env v0 c).1
        (env.F ((andersonTrace cfg env v0 c).2)) := by
    show (handle_previous_vectors cfg.anderson_is_on cfg.num_last_vectors_used
      cfg.dimension cfg.anderson_beta (andersonTrace cfg env v0 c).1
      (env.F (andersonTrace cfg env v0 c).2)).1 = _
    rw [hon, handle_prev_hist]
  rw [hstep]
  show (handle_previous_vectors cfg.anderson_is_on cfg.num_last_vectors_used
    cfg.dimension cfg.anderson_beta (andersonTrace cfg env v0 c).1
    (env.F (andersonTrace cfg env v0 c).2)).2 = _
  rw [hon, handle_prev_mix _ _ _ _ _ (by omega), h1]

/-! Concrete environments and configurations for the closed theorems. -/

/-- A concrete environment whose convergence oracle reports Converged
already at the initial step; hooks all allow, the linear solve adds one to
every component. -/
def envConvFirst : SolveEnv :=
  ⟨fun v => v.map (fun x => x + 1), fun _ => .Converged,
    fun _ => true, fun _ => true, true⟩

/-- A concrete environment that is not converged at the initial step and
reports AboveMaxIterations at every later iteration. -/
def envAboveMax : SolveEnv :=
  ⟨fun v => v, fun it => if it = 1 then .NotConverged else .AboveMaxIterations,
    fun _ => true, fun _ => true, true⟩

/-- A concrete environment whose on_step_begin hook refuses every main-loop
step; convergence never triggers. -/
def envAbort : SolveEnv :=
  ⟨fun v => v, fun _ => .NotConverged, fun _ => false, fun _ => true, true⟩

/-- Capacity 3, dimension 1, no damping, acceleration off. -/
def cfgPlain : Config := ⟨3, 1, 1, false⟩

/-- Capacity 1: misconfigured (history capacity below 2). -/
def cfgBad : Config := ⟨1, 1, 1, false⟩

/-- Capacity 2, dimension 1, no damping, acceleration on. -/
def cfgAndersonOn : Config := ⟨2, 1, 1, true⟩

/-- Capacity 2, dimension 1, no damping, acceleration off. -/
def cfgAndersonOff : Config := ⟨2, 1, 1, false⟩

/-- Counterexample to C6 as stated: when the convergence oracle reports
Converged at the initial step, solve returns normally (a terminal outcome)
but the finalize sequence runs twice — once inside
handle_convergence_state_return_finished and once in solve's initial-step
epilogue (line 386) — not exactly once. -/
theorem claim_C6_counterexample :
    (solveModel cfgPlain envConvFirst none 5).outcome = .finished ∧
    (solveModel cfgPlain envConvFirst none 5).finalizeCount = 2 ∧
    ¬ (solveModel cfgPlain envConvFirst none 5).finalizeCount = 1 :=
  ⟨by decide, by decide, by decide⟩

/-- C6 as amended: on every terminal outcome of solve — Converged,
AboveMaxIterations, Error, or a hook-requested abort — the finalize
sequence runs exactly once, except when the solver converges already at the
initial step, in which case it runs twice; the AboveMaxIterations and Error
states propagate to the caller as exceptions rather than being retried. -/
theorem claim_C6_amended (cfg : Config) (env : SolveEnv) (guess : Option Vec)
    (fuel : ℕ) (hcap : 2 ≤ cfg.num_last_vectors_used) :
    (((solveModel cfg env guess fuel).outcome = .aborted ∨
        (solveModel cfg env guess fuel).outcome = .exnAboveMax ∨
        (solveModel cfg env guess fuel).outcome = .exnError) →
      (solveModel cfg env guess fuel).finalizeCount = 1) ∧
    ((solveModel cfg env guess fuel).outcome = .finished →
      ((env.conv 1 = .Converged → (solveModel cfg env guess fuel).finalizeCount = 2) ∧
        (env.conv 1 ≠ .Converged →
          (solveModel cfg env guess fuel).finalizeCount = 1))) ∧
    handleConvergence .AboveMaxIterations = .raised .exnAboveMax ∧
    handleConvergence .Error = .raised .exnError :=
  ⟨(solveModel_finalize cfg env guess fuel hcap).1,
    (solveModel_finalize cfg env guess fuel hcap).2.1, rfl, rfl⟩

/-- Witness for C6 as amended: capacity 3, AboveMaxIterations at iteration
2 — the exception outcome with exactly one finalization. -/
theorem claim_C6_amended_witness :
    (solveModel cfgPlain envAboveMax none 5).outcome = .exnAboveMax ∧
      (solveModel cfgPlain envAboveMax none 5).finalizeCount = 1 :=
  ⟨by decide,
    (claim_C6_amended cfgPlain envAboveMax none 5 (by decide)).1
      (Or.inr (Or.inl (by decide)))⟩

/-- C7: if the configured history capacity num_last_vectors_used is less
than 2, solve fails fast with a configuration error during its initial
validity check (isOkay, run by init_solving's check before anything else),
before any iteration, linear solve, or finalization; for every capacity
>= 2 this check passes and the outcome is never the configuration error. -/
theorem claim_C7_config_check (cfg : Config) (env : SolveEnv)
    (guess : Option Vec) (fuel : ℕ) :
    (cfg.num_last_vectors_used < 2 →
      (solveModel cfg env guess fuel).outcome = .exnConfig ∧
      (solveModel cfg env guess fuel).linSolves = 0 ∧
      (solveModel cfg env guess fuel).finalizeCount = 0) ∧
    (2 ≤ cfg.num_last_vectors_used →
      (solveModel cfg env guess fuel).outcome ≠ .exnConfig) := by
  constructor
  · intro h
    have h1 : cfg.num_last_vectors_used ≤ 1 := by omega
    refine ⟨?_, ?_, ?_⟩ <;> simp [solveModel, h1]
  · intro h
    exact (solveModel_finalize cfg env guess fuel h).2.2

/-- Witness for C7: capacity 1 fails fast with no linear solve; capacity 3
passes the check. -/
theorem claim_C7_config_check_witness :
    (solveModel cfgBad envAbort none 5).outcome = .exnConfig ∧
      (solveModel cfgBad envAbort none 5).linSolves = 0 ∧
      (solveModel cfgPlain envAbort none 5).outcome ≠ .exnConfig :=
  ⟨((claim_C7_config_check cfgBad envAbort none 5).1 (by decide)).1,
    ((claim_C7_config_check cfgBad envAbort none 5).1 (by decide)).2.1,
    (claim_C7_config_check cfgPlain envAbort none 5).2 (by decide)⟩

/-- C8: if the caller's on_step_begin or on_step_end hook returns false,
solve terminates with the non-error aborted outcome: the finalize sequence
still runs (exactly once) and the solution vector retains the best accepted
iterate so far — the accepted-iterate trace at the number of linear solves
performed.  The second conjunct shows a refusing on_step_begin hook at the
first main-loop step indeed produces the aborted outcome. -/
theorem claim_C8_hook_abort (cfg : Config) (env : SolveEnv) (guess : Option Vec)
    (fuel : ℕ) (hcap : 2 ≤ cfg.num_last_vectors_used) :
    ((solveModel cfg env guess fuel).outcome = .aborted →
      (solveModel cfg env guess fuel).finalizeCount = 1 ∧
      (solveModel cfg env guess fuel).slnVector =
        (andersonTrace cfg env (initial_vector cfg guess)
          (solveModel cfg env guess fuel).linSolves).2 ∧
      1 ≤ (solveModel cfg env guess fuel).linSolves) ∧
    (env.conv 1 = .NotConverged → env.initialStepEnd = true →
      env.stepBegin 2 = false → 1 ≤ fuel →
      (solveModel cfg env guess fuel).outcome = .aborted) := by
  constructor
  · intro h
    exact ⟨(solveModel_finalize cfg env guess fuel hcap).1 (Or.inl h),
      (solveModel_trace cfg env guess fuel hcap).2.1,
      (solveModel_trace cfg env guess fuel hcap).2.2⟩
  · intro hc hie hsb hf
    obtain ⟨m, rfl⟩ : ∃ m, fuel = m + 1 := ⟨fuel - 1, by omega⟩
    have hne : ¬ cfg.num_last_vectors_used ≤ 1 := by omega
    simp [solveModel, hne, hc, handleConvergence, hie, solveLoop, hsb]

/-- Witness for C8: a refusing on_step_begin hook aborts after one linear
solve with one finalization. -/
theorem claim_C8_hook_abort_witness :
    (solveModel cfgPlain envAbort none 5).outcome = .aborted ∧
      (solveModel cfgPlain envAbort none 5).finalizeCount = 1 ∧
      1 ≤ (solveModel cfgPlain envAbort none 5).linSolves :=
  ⟨(claim_C8_hook_abort cfgPlain envAbort none 5 (by decide)).2
      (by decide) (by decide) (by decide) (by decide),
    ((claim_C8_hook_abort cfgPlain envAbort none 5 (by decide)).1 (by decide)).1,
    ((claim_C8_hook_abort cfgPlain envAbort none 5 (by decide)).1 (by decide)).2.2⟩

/-- C9 evidence: with acceleration enabled the history and coefficient
arrays are allocated at solve entry but are not freed by solve exit — no
call site of deinit_anderson exists anywhere in the source file, so the
model's freed flag stays false on every path; with acceleration disabled
nothing is allocated.  This contradicts the claim (and the spec's lifecycle
sentence), which promise the arrays are freed at exit: the code leaks
them. -/
theorem claim_C9_anderson_leak :
    (solveModel cfgAndersonOn envConvFirst none 5).andersonAllocated = true ∧
    (solveModel cfgAndersonOn envConvFirst none 5).andersonFreed = false ∧
    (solveModel cfgAndersonOff envConvFirst none 5).andersonAllocated = false ∧
    (solveModel cfgAndersonOff envConvFirst none 5).andersonFreed = false :=
  ⟨by decide, by decide, by decide, by decide⟩

/-- C10: with acceleration enabled, the history is pre-populated at solve
entry — the initial iterate is history entry 0 and occupancy starts at 1;
for every n below capacity the history after n linear solves is the initial
iterate followed by the n computed results (so the first computed result is
entry 1); the history is full exactly after capacity-minus-1 linear solves;
the first mixed vector is the mixing formula applied to a history whose
entry 0 is still the initial guess; and the solve model's history always
follows this trace. -/
theorem claim_C10_history_prepopulated (cfg : Config) (env : SolveEnv)
    (v0 : Vec) (fuel : ℕ) (hon : cfg.anderson_is_on = true)
    (hcap : 2 ≤ cfg.num_last_vectors_used) :
    (andersonTrace cfg env v0 0).1 = [v0] ∧
    (∀ n, n + 1 ≤ cfg.num_last_vectors_used →
      (andersonTrace cfg env v0 n).1 =
        v0 :: (List.range n).map (fun i => env.F ((andersonTrace cfg env v0 i).2))) ∧
    (∀ n, cfg.num_last_vectors_used ≤ ((andersonTrace cfg env v0 n).1).length ↔
      cfg.num_last_vectors_used - 1 ≤ n) ∧
    (andersonTrace cfg env v0 (cfg.num_last_vectors_used - 1)).2 =
      mixVector cfg.num_last_vectors_used cfg.dimension cfg.anderson_beta
        (calculate_anderson_coeffs cfg.num_last_vectors_used cfg.dimension
          ((andersonTrace cfg env v0 (cfg.num_last_vectors_used - 1)).1))
        ((andersonTrace cfg env v0 (cfg.num_last_vectors_used - 1)).1) ∧
    (solveModel cfg env (some v0) fuel).hist =
      (andersonTrace cfg env v0 (solveModel cfg env (some v0) fuel).linSolves).1 := by
  refine ⟨by simp [andersonTrace, hon],
    fun n hn => andersonTrace_contents cfg env v0 hon (by omega) n hn,
    fun n => ?_,
    andersonTrace_first_mix cfg env v0 hon hcap,
    (solveModel_trace cfg env (some v0) fuel hcap).1⟩
  rw [andersonTrace_length cfg env v0 hon (by omega) n]
  omega

/-- Witness for C10: capacity 2, acceleration on, initial iterate [0]. -/
theorem claim_C10_history_prepopulated_witness :
    cfgAndersonOn.anderson_is_on = true ∧
      2 ≤ cfgAndersonOn.num_last_vectors_used ∧
      (andersonTrace cfgAndersonOn envConvFirst [0] 0).1 = [[0]] :=
  ⟨by decide, by decide,
    (claim_C10_history_prepopulated cfgAndersonOn envConvFirst [0] 3
      (by decide) (by decide)).1⟩

end PicardSolver
